import Mathlib

/-!
Verification of the disc-golf analytics derivation pipeline
(`scripts/build_data.py`) against its natural-language specification.

The pipeline is a pure batch transform over an in-memory record set, so it
is embedded shallowly: pandas rows become Lean structures, float arithmetic
is modelled over `ℚ` (all quantities involved — ratings, sums, means,
half-point rounding — are exactly representable, so `ℚ` is faithful for the
stated properties), timestamps become calendar dates plus a sortable minute
ordinal, and Python's salted string `hash` is modelled as an explicit
function parameter (one per process run).
-/

namespace Donkeys

/-! ## Configuration constants (from the source `Config` block) -/

def TRACKED_PLAYERS : List String := ["Armygeddon", "Jobby", "Miza", "Bucis", "Youare22"]

def ALIASES : List (String × String) := [("Misa", "Miza")]

def HANDICAP_MIN_ROUNDS : Nat := 5

def HANDICAP_WINDOW : Nat := 20

def HANDICAP_BEST : Nat := 8

def HANDICAP_POINTS_PER_STROKE : ℚ := 10

def HANDICAP_CAP : ℚ := 6

def BEST10_COUNT : Nat := 10

/-! ## Calendar model

Python `date` objects are modelled as (year, month, day) triples; Python's
`date` ordering and `timedelta` arithmetic are reflected through the
proleptic-Gregorian ordinal (`date.toordinal`), which is order-isomorphic
to date ordering on valid dates. `date.weekday()` (Mon=0 … Sun=6) equals
`(toordinal + 6) % 7`. -/

structure Date where
  year : ℕ
  month : ℕ
  day : ℕ
deriving DecidableEq

def isLeap (y : ℕ) : Bool :=
  (y % 4 == 0 && y % 100 != 0) || y % 400 == 0

def daysBeforeMonth (y m : ℕ) : ℕ :=
  (match m with
   | 1 => 0 | 2 => 31 | 3 => 59 | 4 => 90 | 5 => 120 | 6 => 151
   | 7 => 181 | 8 => 212 | 9 => 243 | 10 => 273 | 11 => 304 | 12 => 334
   | _ => 0)
  + (if 2 < m then (if isLeap y then 1 else 0) else 0)

def daysInMonth (y m : ℕ) : ℕ :=
  match m with
  | 1 => 31 | 2 => if isLeap y then 29 else 28 | 3 => 31 | 4 => 30
  | 5 => 31 | 6 => 30 | 7 => 31 | 8 => 31 | 9 => 30 | 10 => 31
  | 11 => 30 | 12 => 31 | _ => 0

/-- `date(y, m, d).toordinal()` in the proleptic Gregorian calendar. -/
def toOrd (y m d : ℕ) : ℕ :=
  365 * (y - 1) + (y - 1) / 4 - (y - 1) / 100 + (y - 1) / 400 + daysBeforeMonth y m + d

def Date.ord (dt : Date) : ℕ := toOrd dt.year dt.month dt.day

def Date.Valid (dt : Date) : Prop :=
  1 ≤ dt.year ∧ 1 ≤ dt.month ∧ dt.month ≤ 12 ∧ 1 ≤ dt.day ∧
    dt.day ≤ daysInMonth dt.year dt.month

instance (dt : Date) : Decidable dt.Valid :=
  inferInstanceAs (Decidable (1 ≤ dt.year ∧ 1 ≤ dt.month ∧ dt.month ≤ 12 ∧ 1 ≤ dt.day ∧
    dt.day ≤ daysInMonth dt.year dt.month))

/-- Python `date.weekday()`: Mon=0 … Sun=6. -/
def weekday (ord : ℕ) : ℕ := (ord + 6) % 7

/-- `first_sunday(year, month)` from the source: the first Sunday on or
after the 1st of the month, via `(6 - weekday) % 7` days added to the 1st. -/
def first_sunday (y m : ℕ) : Date :=
  let off := (6 - weekday (toOrd y m 1)) % 7
  ⟨y, m, 1 + off⟩

/-- Python `str.strip()`: drop whitespace from both ends. -/
def pyStrip (s : String) : String :=
  ⟨(((s.data.dropWhile Char.isWhitespace).reverse.dropWhile Char.isWhitespace).reverse)⟩

/-- Python `str(n)[-2:]` for a natural number `n`: the last two characters
of its decimal representation. -/
def last2 (n : ℕ) : String :=
  let l := (toString n).data
  ⟨l.drop (l.length - 2)⟩

structure Season where
  season_type : String
  season_label : String
  season_start : Date
deriving DecidableEq

/-- `season_for(d)` from the source.  Date comparisons (`d >= oct_start`
etc.) are reflected through ordinals. -/
def season_for (dt : Date) : Season :=
  let apr_start := first_sunday dt.year 4
  let oct_start := first_sunday dt.year 10
  if oct_start.ord ≤ dt.ord then
    { season_type := "Summer"
      season_label := "Summer " ++ toString dt.year ++ "-" ++ last2 (dt.year + 1)
      season_start := oct_start }
  else if apr_start.ord ≤ dt.ord then
    { season_type := "Winter"
      season_label := "Winter " ++ toString dt.year
      season_start := apr_start }
  else
    { season_type := "Summer"
      season_label := "Summer " ++ toString (dt.year - 1) ++ "-" ++ last2 dt.year
      season_start := first_sunday (dt.year - 1) 10 }

/-! ## Numeric helpers -/

/-- Python's built-in `round` to an integer (round-half-to-even /
banker's rounding), on the `ℚ` model of floats.  Odd multiples of `1/2`
are exactly representable as binary floats, so the float ties the source
hits are genuine ties and resolve exactly as modelled here. -/
def pyRound (q : ℚ) : ℤ :=
  let f := q.floor
  let r := q - (f : ℚ)
  if r < 1 / 2 then f
  else if 1 / 2 < r then f + 1
  else if f % 2 = 0 then f else f + 1

/-- `round_half(x) = round(x * 2.0) / 2.0` from the source. -/
def round_half (x : ℚ) : ℚ := (pyRound (x * 2) : ℚ) / 2

/-- A raw cell value as seen by pandas: a number, a text string, or NA. -/
inductive RawField where
  | num (q : ℚ)
  | text (s : String)
  | na
deriving DecidableEq

/-- Decimal digit-string value. -/
def digitsVal (l : List Char) : ℕ :=
  l.foldl (fun acc c => acc * 10 + (c.toNat - 48)) 0

/-- Model of the numeric-text parser inside `pd.to_numeric`
(optional sign, digits, optional decimal point); non-numeric text yields
`none`. -/
def parseDecimal (s : String) : Option ℚ :=
  let t := (pyStrip s).data
  let signRest : ℚ × List Char :=
    match t with
    | '-' :: rest => (-1, rest)
    | '+' :: rest => (1, rest)
    | _ => (1, t)
  let sign := signRest.1
  match signRest.2.splitOn '.' with
  | [intPart] =>
      if intPart.length > 0 && intPart.all Char.isDigit then
        some (sign * (digitsVal intPart : ℚ))
      else none
  | [intPart, fracPart] =>
      if (intPart.length > 0 || fracPart.length > 0) && intPart.all Char.isDigit &&
          fracPart.all Char.isDigit then
        some (sign *
          ((digitsVal intPart : ℚ) + (digitsVal fracPart : ℚ) / (10 : ℚ) ^ fracPart.length))
      else none
  | _ => none

/-- `pd.to_numeric(x, errors="coerce")` on one cell: numbers pass through,
text is parsed if numeric, everything else coerces to NA (`none`).
Total by construction — coercion never raises. -/
def to_numeric (x : RawField) : Option ℚ :=
  match x with
  | .num q => some q
  | .text s => parseDecimal s
  | .na => none

/-- `safe_float` from the source: NA stays `None`, numbers pass through
unchanged; the `try`/`except` never fires on an already-numeric value, so
on the `Option ℚ` model it is the identity. -/
def safe_float (x : Option ℚ) : Option ℚ :=
  match x with
  | none => none
  | some q => some q

/-! ## Record normalizer -/

/-- One raw CSV row.  The parsed start timestamp is carried as a calendar
date (for the season classifier) plus a total-minute ordinal
(for sorting by `StartDT`); `StartDateRaw` and `TotalRaw` are the raw
strings used by the round-id construction.  `holes` lists the cells
`Hole1` … `Hole27` in order. -/
structure RawRow where
  PlayerName : String
  CourseName : String
  LayoutName : String
  StartDateRaw : String
  startDate : Date
  startMinute : ℕ
  TotalRaw : String
  RoundRating : RawField
  holes : List (Option ℚ)
deriving DecidableEq

/-- Name canonicalisation: strip whitespace, then the alias table. -/
def canonName (s : String) : String :=
  let t := pyStrip s
  (ALIASES.lookup t).getD t

def isTracked (p : String) : Bool := TRACKED_PLAYERS.contains p

/-- `~df[hole_1_18].isna().any(axis=1)`: holes 1–18 all present. -/
def has_all_18 (r : RawRow) : Bool :=
  (List.range 18).all fun i => (r.holes.getD i none).isSome

/-- `df[hole_19_plus].notna().any(axis=1)`: any of holes 19–27 present. -/
def has_extra (r : RawRow) : Bool :=
  (List.range 9).any fun i => (r.holes.getD (18 + i) none).isSome

def full_18_only (r : RawRow) : Bool := has_all_18 r && !has_extra r

/-- The row filter `df["PlayerName"].isin(TRACKED_PLAYERS) & full_18_only`
(names are canonicalised before the filter in the source). -/
def passesFilter (r : RawRow) : Bool :=
  isTracked (canonName r.PlayerName) && full_18_only r

def course_key_of (r : RawRow) : String :=
  pyStrip r.CourseName ++ " — " ++ pyStrip r.LayoutName

structure NormRound where
  player : String
  course_key : String
  startMinute : ℕ
  rating : Option ℚ
  is_rated : Bool
  season_label : String
  season_type : String
deriving DecidableEq

/-- Derivation of the per-row normalized columns: `RoundRatingNum`,
`IsRated`, season tagging, and the published `rating` field
(`safe_float(RoundRatingNum)`). -/
def projectRow (r : RawRow) : NormRound :=
  let ratingNum := to_numeric r.RoundRating
  let season := season_for r.startDate
  { player := canonName r.PlayerName
    course_key := course_key_of r
    startMinute := r.startMinute
    rating := safe_float ratingNum
    is_rated := ratingNum.isSome
    season_label := season.season_label
    season_type := season.season_type }

def normalize (rows : List RawRow) : List NormRound :=
  (rows.filter passesFilter).map projectRow

/-! ## Round id

The source builds
`RoundId = str(abs(hash(player + "|" + course_key + "|" + start + "|" + total)))`.
CPython's `hash` on `str` is salted with a per-process random key
(`PYTHONHASHSEED`), so the hash function is a parameter of the run, not a
fixed function; it is therefore modelled as an explicit argument. -/

def roundIdKey (player courseKey startDateRaw totalRaw : String) : String :=
  player ++ "|" ++ courseKey ++ "|" ++ startDateRaw ++ "|" ++ totalRaw

def roundId (pyHash : String → ℤ) (player courseKey startDateRaw totalRaw : String) : String :=
  toString (pyHash (roundIdKey player courseKey startDateRaw totalRaw)).natAbs

/-! ## Seasonal ladder aggregator -/

/-- `sorted(ratings, reverse=True)`. -/
def sortDescQ (l : List ℚ) : List ℚ := l.insertionSort (fun a b => b ≤ a)

/-- The rating multiset of the `(season_label, player)` group of
`rated_df`, with `dropna()` applied. -/
def ratingsOf (rows : List NormRound) (s p : String) : List ℚ :=
  (rows.filter fun r => r.is_rated && r.season_label == s && r.player == p).filterMap
    (fun r => r.rating)

/-- `season_total_best10` for one `(season_label, player)` group:
sum of the top `BEST10_COUNT` ratings, `None` when the group is empty. -/
def season_total_best10 (rows : List NormRound) (s p : String) : Option ℚ :=
  let ratings := sortDescQ (ratingsOf rows s p)
  let top10 := ratings.take BEST10_COUNT
  if top10.isEmpty then none else some top10.sum

/-! ## Handicap engine -/

def ratedRoundsOf (rows : List NormRound) (p : String) : List NormRound :=
  rows.filter fun r => r.is_rated && r.player == p

/-- `g.sort_values("StartDT", ascending=False)`. -/
def sortByStartDesc (rows : List NormRound) : List NormRound :=
  rows.insertionSort (fun a b => b.startMinute ≤ a.startMinute)

/-- Ratings of the rolling window: the most recent `HANDICAP_WINDOW`
rated rounds, `dropna()` applied. -/
def windowRatings (rows : List NormRound) : List ℚ :=
  ((sortByStartDesc rows).take HANDICAP_WINDOW).filterMap (fun r => r.rating)

/-- Per-player form: `None` below `HANDICAP_MIN_ROUNDS`, else the mean of
the best `HANDICAP_BEST` window ratings. -/
def playerFormOf (rows : List NormRound) : Option ℚ :=
  let ratings := windowRatings rows
  if ratings.length < HANDICAP_MIN_ROUNDS then none
  else
    let best8 := (sortDescQ ratings).take HANDICAP_BEST
    some (best8.sum / (best8.length : ℚ))

/-- `player_form.get(player)`: players with no rated rounds are not keys
of the dict and yield `None`; keyed players carry `playerFormOf`. -/
def formsOf (rows : List NormRound) (p : String) : Option ℚ :=
  playerFormOf (ratedRoundsOf rows p)

/-- Python string comparison: lexicographic on code points. -/
def pyStrLtList : List Char → List Char → Bool
  | [], [] => false
  | [], _ :: _ => true
  | _ :: _, [] => false
  | a :: as, b :: bs =>
      if a.toNat < b.toNat then true
      else if b.toNat < a.toNat then false
      else pyStrLtList as bs

def pyStrLe (a b : String) : Bool := !(pyStrLtList b.data a.data)

/-- `sorted(TRACKED_PLAYERS)`: ascending in Python's code-point
lexicographic string order. -/
def trackedSorted : List String := TRACKED_PLAYERS.insertionSort (fun a b => pyStrLe a b = true)

/-- `reference`: mean of the defined form indexes, `None` when none are
defined. -/
def referenceOf (forms : String → Option ℚ) : Option ℚ :=
  let eligible := trackedSorted.filterMap forms
  if eligible.isEmpty then none else some (eligible.sum / (eligible.length : ℚ))

structure HandicapEntry where
  player : String
  handicap : Option ℚ
  form_index : Option ℚ
  reference_rating : Option ℚ
  status : String
deriving DecidableEq

def STATUS_NO_HANDICAP : String := "No handicap yet (insufficient rated rounds)"

/-- The per-player output entry: the `reference is None or form_index is
None` branch emits the insufficiency record, otherwise the handicap is the
rounded, capped differential. -/
def handicapEntryFor (reference : Option ℚ) (p : String) (form_index : Option ℚ) :
    HandicapEntry :=
  match reference, form_index with
  | some ref, some fi =>
      let raw := (ref - fi) / HANDICAP_POINTS_PER_STROKE
      let h := round_half raw
      let h2 := max (-HANDICAP_CAP) (min HANDICAP_CAP h)
      { player := p, handicap := some h2, form_index := some fi,
        reference_rating := some ref, status := "OK" }
  | ref, fi =>
      { player := p, handicap := none, form_index := fi,
        reference_rating := ref, status := STATUS_NO_HANDICAP }

/-- `for player in sorted(TRACKED_PLAYERS): …` — one entry per tracked
player, in name order. -/
def handicapsOf (forms : String → Option ℚ) : List HandicapEntry :=
  let reference := referenceOf forms
  trackedSorted.map fun p => handicapEntryFor reference p (forms p)

def handicapsFromRows (rows : List NormRound) : List HandicapEntry :=
  handicapsOf (formsOf rows)

/-! ## Relation instances for the descending sorts -/

instance : IsTotal ℚ (fun a b : ℚ => b ≤ a) := ⟨fun a b => le_total b a⟩

instance : IsTrans ℚ (fun a b : ℚ => b ≤ a) := ⟨fun _ _ _ h1 h2 => le_trans h2 h1⟩

instance : IsAntisymm ℚ (fun a b : ℚ => b ≤ a) := ⟨fun _ _ h1 h2 => le_antisymm h2 h1⟩

/-! ## Concrete sample data used by the witness theorems -/

def mkRound (p : String) (t : ℕ) (q : ℚ) (s : String) : NormRound :=
  { player := p, course_key := "Course — Main", startMinute := t, rating := some q,
    is_rated := true, season_label := s, season_type := "Winter" }

def rows4W : List NormRound := (List.range 4).map fun i => mkRound "Miza" i 900 "Winter 2025"

def rows5W : List NormRound := (List.range 5).map fun i => mkRound "Miza" i 900 "Winter 2025"

def e5W : HandicapEntry := ⟨"Miza", some 0, some 900, some 900, "OK"⟩

def rowsL1 : List NormRound :=
  [mkRound "Jobby" 1 930 "Winter 2025", mkRound "Jobby" 2 910 "Winter 2025"]

def rowsL1' : List NormRound :=
  [mkRound "Jobby" 2 910 "Winter 2025", mkRound "Jobby" 1 930 "Winter 2025"]

def rowsL12 : List NormRound :=
  (List.range 12).map fun i => mkRound "Jobby" i (900 + i) "Winter 2025"

def r0W : RawRow :=
  { PlayerName := "Misa", CourseName := "Course", LayoutName := "Main",
    StartDateRaw := "2025-05-01 0900", startDate := ⟨2025, 5, 1⟩, startMinute := 1000,
    TotalRaw := "54", RoundRating := .num 900,
    holes := List.replicate 18 (some 3) ++ List.replicate 9 none }

def r1W : RawRow :=
  { PlayerName := "Misa", CourseName := "Course", LayoutName := "Main",
    StartDateRaw := "2025-05-01 0900", startDate := ⟨2025, 5, 1⟩, startMinute := 1000,
    TotalRaw := "54", RoundRating := .num 900,
    holes := List.replicate 17 (some 3) ++ List.replicate 10 none }

def wFormsW : String → Option ℚ := fun q => if q = "Miza" then some 900 else none

/-! ## Helper lemmas -/

lemma round_half_eq_intCast_div_two (x : ℚ) : ∃ m : ℤ, round_half x = (m : ℚ) / 2 :=
  ⟨pyRound (x * 2), rfl⟩

lemma clamp_half_steps (z : ℚ) (hz : ∃ m : ℤ, z = (m : ℚ) / 2) :
    -6 ≤ max (-(6 : ℚ)) (min 6 z) ∧ max (-(6 : ℚ)) (min 6 z) ≤ 6 ∧
      ∃ m : ℤ, max (-(6 : ℚ)) (min 6 z) = (m : ℚ) / 2 := by
  obtain ⟨m, rfl⟩ := hz
  refine ⟨le_max_left _ _, max_le (by norm_num) (min_le_left _ _), ?_⟩
  rcases le_total ((m : ℚ) / 2) 6 with h6 | h6
  · rw [min_eq_right h6]
    rcases le_total ((m : ℚ) / 2) (-6) with hm | hm
    · rw [max_eq_left hm]
      exact ⟨-12, by norm_num⟩
    · rw [max_eq_right hm]
      exact ⟨m, rfl⟩
  · rw [min_eq_left h6, max_eq_right (by norm_num : -(6 : ℚ) ≤ 6)]
    exact ⟨12, by norm_num⟩

lemma rat_floor_eq_intFloor (q : ℚ) : q.floor = ⌊q⌋ :=
  (Rat.floor_def' q).trans Rat.floor_def.symm

lemma pyRound_half_odd (j : ℤ) : pyRound ((j : ℚ) + 1 / 2) = if j % 2 = 0 then j else j + 1 := by
  have hf : ((j : ℚ) + 1 / 2).floor = j := by
    rw [rat_floor_eq_intFloor, add_comm, Int.floor_add_int]
    norm_num
  simp only [pyRound, hf]
  have hr : ((j : ℚ) + 1 / 2) - (j : ℚ) = 1 / 2 := by ring
  rw [hr, if_neg (lt_irrefl _), if_neg (lt_irrefl _)]

/-! ## Claim theorems -/

/-- C1: the claim demands that `round_id` be a run-reproducible function of
   (player, course_key, raw start string, raw total).  The code derives it
   as `str(abs(hash(key)))`, and CPython's string `hash` is salted with a
   fresh random key per process (`PYTHONHASHSEED`), so the value depends on
   the per-run hash function, not only on the row: two runs on identical
   input generally emit different `round_id`s.  This theorem evaluates the
   round-id construction at a concrete row and exhibits two process hash
   functions that yield different ids. -/
theorem roundId_depends_on_process_hash :
    ∃ h₁ h₂ : String → ℤ,
      roundId h₁ "Miza" "Course — Main" "2025-12-22 0349" "54" ≠
        roundId h₂ "Miza" "Course — Main" "2025-12-22 0349" "54" :=
  ⟨fun _ => 0, fun _ => 1, by decide⟩

/-- C2: whenever an emitted `HandicapEntry` has a non-null handicap, the
   handicap lies in the closed interval `[-6, 6]` and is an integral
   multiple of `0.5`. -/
theorem handicap_bounded_half_steps :
    ∀ rows : List NormRound, ∀ e ∈ handicapsFromRows rows, ∀ h : ℚ,
      e.handicap = some h →
      -6 ≤ h ∧ h ≤ 6 ∧ ∃ m : ℤ, h = (m : ℚ) / 2 := by
  intro rows e he h hh
  simp only [handicapsFromRows, handicapsOf, List.mem_map] at he
  obtain ⟨p, -, rfl⟩ := he
  rcases hR : referenceOf (formsOf rows) with _ | ref <;>
    rcases hF : formsOf rows p with _ | fi <;>
      rw [hR, hF] at hh <;>
        simp only [handicapEntryFor] at hh
  · exact absurd hh (by simp)
  · exact absurd hh (by simp)
  · exact absurd hh (by simp)
  · rw [Option.some_inj] at hh
    rw [← hh]
    have := clamp_half_steps (round_half ((ref - fi) / HANDICAP_POINTS_PER_STROKE))
      (round_half_eq_intCast_div_two _)
    simpa [HANDICAP_CAP] using this

unseal Rat.add Rat.mul Rat.inv Rat.sub in
/-- C2 witness: on five rated 900 rounds for one player, the emitted
   handicap is `0`, which satisfies the bounds and the half-step shape. -/
theorem handicap_bounded_half_steps_witness :
    -6 ≤ (0 : ℚ) ∧ (0 : ℚ) ≤ 6 ∧ ∃ m : ℤ, (0 : ℚ) = (m : ℚ) / 2 :=
  handicap_bounded_half_steps rows5W e5W (by decide) 0 (by decide)

unseal Rat.add Rat.mul Rat.inv Rat.sub in
/-- C10: `round_half` resolves exact ties half-to-even: at every odd
   multiple of `1/4` the result is the adjacent even multiple of `1/2`
   (distance exactly `1/4`, even numerator over 2), and in particular
   `round_half 0.25 = 0` and `round_half 0.75 = 1` rather than the
   away-from-zero values `0.5` and `1.5`. -/
theorem round_half_ties_to_even :
    (∀ k : ℤ, Odd k →
      ∃ m : ℤ, m % 2 = 0 ∧ round_half ((k : ℚ) / 4) = (m : ℚ) / 2 ∧
        |round_half ((k : ℚ) / 4) - (k : ℚ) / 4| = 1 / 4) ∧
    round_half (1 / 4) = 0 ∧ round_half (3 / 4) = 1 ∧ round_half (5 / 4) = 1 := by
  refine ⟨?_, by decide, by decide, by decide⟩
  intro k hk
  obtain ⟨j, hj⟩ := hk
  have hkq : (k : ℚ) = 2 * (j : ℚ) + 1 := by
    rw [hj]; push_cast; ring
  have hk2 : (k : ℚ) / 4 * 2 = (j : ℚ) + 1 / 2 := by
    rw [hkq]; ring
  have hp : pyRound ((k : ℚ) / 4 * 2) = if j % 2 = 0 then j else j + 1 := by
    rw [hk2, pyRound_half_odd]
  have hrh : round_half ((k : ℚ) / 4) = ((if j % 2 = 0 then j else j + 1 : ℤ) : ℚ) / 2 := by
    simp only [round_half, hp]
  refine ⟨if j % 2 = 0 then j else j + 1, ?_, hrh, ?_⟩
  · rcases Int.emod_two_eq_zero_or_one j with h | h
    · rw [if_pos h]; exact h
    · rw [if_neg (by omega)]; omega
  · rw [hrh, hkq]
    rcases Int.emod_two_eq_zero_or_one j with h | h
    · rw [if_pos h]
      rw [show ((j : ℤ) : ℚ) / 2 - (2 * (j : ℚ) + 1) / 4 = -(1 / 4) by ring]
      rw [abs_neg]
      norm_num
    · rw [if_neg (by omega)]
      rw [show (((j + 1 : ℤ)) : ℚ) / 2 - (2 * (j : ℚ) + 1) / 4 = 1 / 4 by push_cast; ring]
      norm_num

/-- C10 witness: the general tie statement applied at the concrete odd
   numerator `k = 1`. -/
theorem round_half_ties_to_even_witness :
    ∃ m : ℤ, m % 2 = 0 ∧ round_half ((1 : ℚ) / 4) = (m : ℚ) / 2 ∧
      |round_half ((1 : ℚ) / 4) - (1 : ℚ) / 4| = 1 / 4 := by
  have := round_half_ties_to_even.1 1 ⟨0, by norm_num⟩
  simpa using this

/-- C3: a raw row yields a `NormalizedRound` only if holes 1–18 all carry a
   score and holes 19–27 carry none; a row missing any of holes 1–18, or
   carrying any score in holes 19–27, fails the row filter and contributes
   nothing to the normalized output, regardless of its other fields.
   (Hole `i` is `holes.getD (i-1) none` in the embedding.) -/
theorem completeness_filter_spec :
    (∀ (rows : List RawRow) (nr : NormRound), nr ∈ normalize rows →
      ∃ r ∈ rows, nr = projectRow r ∧
        (∀ i, i < 18 → (r.holes.getD i none).isSome = true) ∧
        (∀ i, 18 ≤ i → i < 27 → r.holes.getD i none = none)) ∧
    (∀ r : RawRow,
      ((∃ i, i < 18 ∧ r.holes.getD i none = none) ∨
        (∃ i, 18 ≤ i ∧ i < 27 ∧ (r.holes.getD i none).isSome = true)) →
      passesFilter r = false ∧ ∀ rows : List RawRow, normalize (r :: rows) = normalize rows) := by
  constructor
  · intro rows nr hnr
    simp only [normalize, List.mem_map, List.mem_filter] at hnr
    obtain ⟨r, ⟨hrm, hrp⟩, rfl⟩ := hnr
    have hrp2 : full_18_only r = true := by
      simp only [passesFilter, Bool.and_eq_true] at hrp
      exact hrp.2
    simp only [full_18_only, Bool.and_eq_true, Bool.not_eq_true'] at hrp2
    obtain ⟨hall, hex⟩ := hrp2
    simp only [has_all_18, List.all_eq_true, List.mem_range] at hall
    simp only [has_extra, List.any_eq_false, List.mem_range] at hex
    refine ⟨r, hrm, rfl, fun i hi => hall i hi, fun i h18 h27 => ?_⟩
    obtain ⟨j, rfl⟩ := Nat.exists_eq_add_of_le h18
    have hj := hex j (by omega)
    rwa [Option.not_isSome_iff_eq_none] at hj
  · intro r hbad
    have hfull : full_18_only r = false := by
      rcases hbad with ⟨i, hi, hnone⟩ | ⟨i, h18, h27, hsome⟩
      · have h1 : has_all_18 r = false := by
          rw [Bool.eq_false_iff]
          intro habs
          simp only [has_all_18, List.all_eq_true, List.mem_range] at habs
          have hmem := habs i hi
          rw [hnone] at hmem
          simp at hmem
        simp [full_18_only, h1]
      · have h2 : has_extra r = true := by
          simp only [has_extra, List.any_eq_true, List.mem_range]
          obtain ⟨j, rfl⟩ := Nat.exists_eq_add_of_le h18
          exact ⟨j, by omega, hsome⟩
        simp [full_18_only, h2]
    have hpass : passesFilter r = false := by
      simp [passesFilter, hfull]
    refine ⟨hpass, fun rows => ?_⟩
    simp only [normalize, List.filter_cons, hpass]
    rw [if_neg (by simp)]

/-- C3 witness: a complete 18-hole row passes and appears in the output;
   a row with hole 18 missing is excluded even alongside other fields. -/
theorem completeness_filter_spec_witness :
    (∃ r ∈ [r0W], projectRow r0W = projectRow r ∧
      (∀ i, i < 18 → (r.holes.getD i none).isSome = true) ∧
      (∀ i, 18 ≤ i → i < 27 → r.holes.getD i none = none)) ∧
    passesFilter r1W = false ∧ normalize (r1W :: [r0W]) = normalize [r0W] := by
  refine ⟨completeness_filter_spec.1 [r0W] (projectRow r0W) (by decide), ?_, ?_⟩
  · exact (completeness_filter_spec.2 r1W (Or.inl ⟨17, by norm_num, by decide⟩)).1
  · exact (completeness_filter_spec.2 r1W (Or.inl ⟨17, by norm_num, by decide⟩)).2 [r0W]

/-- C8: rating coercion is a total function — numeric values pass through,
   NA and non-numeric text coerce to `none` instead of raising — and in
   every emitted `NormalizedRound` the published `rating` is non-null
   exactly when `is_rated` is true. -/
theorem rating_coercion_consistency :
    (∀ q : ℚ, to_numeric (.num q) = some q) ∧
    to_numeric .na = none ∧
    to_numeric (.text "abc") = none ∧
    (∀ x : RawField, safe_float (to_numeric x) = to_numeric x) ∧
    (∀ rows : List RawRow, ∀ nr ∈ normalize rows,
      (nr.rating ≠ none ↔ nr.is_rated = true)) := by
  refine ⟨fun q => rfl, rfl, by decide, ?_, ?_⟩
  · intro x
    rcases hx : to_numeric x with _ | q <;> rfl
  · intro rows nr hnr
    simp only [normalize, List.mem_map] at hnr
    obtain ⟨r, -, rfl⟩ := hnr
    simp only [projectRow]
    rcases ht : to_numeric r.RoundRating with _ | q <;> simp [safe_float, ht]

/-- C8 witness: the rating/is_rated consistency applied to a concrete
   normalized row. -/
theorem rating_coercion_consistency_witness :
    (projectRow r0W).rating ≠ none ↔ (projectRow r0W).is_rated = true :=
  rating_coercion_consistency.2.2.2.2 [r0W] (projectRow r0W) (by decide)

lemma daysBeforeMonth_4 (y : ℕ) : daysBeforeMonth y 4 = 90 + (if isLeap y then 1 else 0) := rfl

lemma daysBeforeMonth_10 (y : ℕ) : daysBeforeMonth y 10 = 273 + (if isLeap y then 1 else 0) :=
  rfl

lemma first_sunday_year (y m : ℕ) : (first_sunday y m).year = y := rfl

lemma first_sunday_ord_lb (y m : ℕ) : toOrd y m 1 ≤ (first_sunday y m).ord := by
  simp only [first_sunday, Date.ord, toOrd, weekday]
  omega

lemma first_sunday_ord_ub (y m : ℕ) : (first_sunday y m).ord ≤ toOrd y m 1 + 6 := by
  simp only [first_sunday, Date.ord, toOrd, weekday]
  omega

lemma toOrd_gap_4_10 (y : ℕ) : toOrd y 4 1 + 183 = toOrd y 10 1 := by
  simp only [toOrd, daysBeforeMonth_4, daysBeforeMonth_10]
  split_ifs <;> omega

/-- C4: the season classifier is a total function (every calendar date
   maps to exactly one season record), and for every year `Y ≥ 1`:
   the October boundary date itself is Summer of `Y`, the day before it is
   Winter of `Y`, the April boundary date is Winter of `Y`, and the day
   before the April boundary belongs to the prior Summer, labelled from
   `Y - 1` and the two trailing digits of `Y`. -/
theorem season_classifier_boundaries :
    (∀ dt : Date, ∃! s : Season, season_for dt = s) ∧
    (∀ Y : ℕ, 1 ≤ Y →
      season_for (first_sunday Y 10) =
        ⟨"Summer", "Summer " ++ toString Y ++ "-" ++ last2 (Y + 1), first_sunday Y 10⟩ ∧
      (∀ dt : Date, dt.Valid → dt.year = Y → dt.ord + 1 = (first_sunday Y 10).ord →
        season_for dt = ⟨"Winter", "Winter " ++ toString Y, first_sunday Y 4⟩) ∧
      season_for (first_sunday Y 4) =
        ⟨"Winter", "Winter " ++ toString Y, first_sunday Y 4⟩ ∧
      (∀ dt : Date, dt.Valid → dt.year = Y → dt.ord + 1 = (first_sunday Y 4).ord →
        season_for dt =
          ⟨"Summer", "Summer " ++ toString (Y - 1) ++ "-" ++ last2 Y,
            first_sunday (Y - 1) 10⟩)) := by
  refine ⟨fun dt => ⟨season_for dt, rfl, fun s hs => hs.symm⟩, ?_⟩
  intro Y hY
  have hlb4 := first_sunday_ord_lb Y 4
  have hub4 := first_sunday_ord_ub Y 4
  have hlb10 := first_sunday_ord_lb Y 10
  have hub10 := first_sunday_ord_ub Y 10
  have hgap := toOrd_gap_4_10 Y
  refine ⟨?_, ?_, ?_, ?_⟩
  · simp only [season_for, first_sunday_year]
    rw [if_pos le_rfl]
  · intro dt _ hYear hOrd
    simp only [season_for, hYear]
    rw [if_neg (by omega), if_pos (by omega)]
  · simp only [season_for, first_sunday_year]
    rw [if_neg (by omega), if_pos le_rfl]
  · intro dt _ hYear hOrd
    simp only [season_for, hYear]
    rw [if_neg (by omega), if_neg (by omega)]

/-- C4 witness: the boundary facts applied in the concrete year 2025,
   whose October boundary is Sunday 2025-10-05 and April boundary is
   Sunday 2025-04-06. -/
theorem season_classifier_boundaries_witness :
    season_for ⟨2025, 10, 4⟩ = ⟨"Winter", "Winter " ++ toString 2025, first_sunday 2025 4⟩ ∧
    season_for ⟨2025, 4, 5⟩ =
      ⟨"Summer", "Summer " ++ toString (2025 - 1) ++ "-" ++ last2 2025,
        first_sunday (2025 - 1) 10⟩ :=
  ⟨(season_classifier_boundaries.2 2025 (by norm_num)).2.1 ⟨2025, 10, 4⟩ (by decide) rfl
     (by decide),
   (season_classifier_boundaries.2 2025 (by norm_num)).2.2.2 ⟨2025, 4, 5⟩ (by decide) rfl
     (by decide)⟩

lemma sortDescQ_perm (l : List ℚ) : (sortDescQ l).Perm l := List.perm_insertionSort _ l

lemma sortDescQ_sorted (l : List ℚ) :
    List.Sorted (fun a b : ℚ => b ≤ a) (sortDescQ l) :=
  List.sorted_insertionSort _ l

lemma sortDescQ_congr {l l' : List ℚ} (h : l.Perm l') : sortDescQ l = sortDescQ l' :=
  List.eq_of_perm_of_sorted ((sortDescQ_perm l).trans (h.trans (sortDescQ_perm l').symm))
    (sortDescQ_sorted l) (sortDescQ_sorted l')

lemma ratingsOf_perm {rows rows' : List NormRound} (h : rows.Perm rows') (s p : String) :
    (ratingsOf rows s p).Perm (ratingsOf rows' s p) :=
  (h.filter _).filterMap _

/-- C5: the ladder total for a `(season_label, player)` group is invariant
   under permutation of the input rows; with `1 ≤ k < 10` rated rounds it
   is the sum of all `k` ratings, and with `k ≥ 10` it is the sum of a
   10-element sub-multiset that dominates every remaining rating — the
   10 highest. -/
theorem ladder_best10_spec :
    (∀ rows rows' : List NormRound, rows.Perm rows' → ∀ s p : String,
      season_total_best10 rows s p = season_total_best10 rows' s p) ∧
    (∀ (rows : List NormRound) (s p : String),
      1 ≤ (ratingsOf rows s p).length → (ratingsOf rows s p).length < BEST10_COUNT →
      season_total_best10 rows s p = some (ratingsOf rows s p).sum) ∧
    (∀ (rows : List NormRound) (s p : String), BEST10_COUNT ≤ (ratingsOf rows s p).length →
      ∃ chosen rest : List ℚ, (chosen ++ rest).Perm (ratingsOf rows s p) ∧
        chosen.length = BEST10_COUNT ∧
        (∀ x ∈ chosen, ∀ y ∈ rest, y ≤ x) ∧
        season_total_best10 rows s p = some chosen.sum) := by
  refine ⟨?_, ?_, ?_⟩
  · intro rows rows' h s p
    simp only [season_total_best10]
    rw [sortDescQ_congr (ratingsOf_perm h s p)]
  · intro rows s p h1 h10
    have hlen : (sortDescQ (ratingsOf rows s p)).length = (ratingsOf rows s p).length :=
      (sortDescQ_perm _).length_eq
    have htake : (sortDescQ (ratingsOf rows s p)).take BEST10_COUNT =
        sortDescQ (ratingsOf rows s p) :=
      List.take_of_length_le (by omega)
    have hne : sortDescQ (ratingsOf rows s p) ≠ [] := by
      intro h0
      rw [h0] at hlen
      simp at hlen
      omega
    simp only [season_total_best10, htake]
    rw [if_neg (by simpa [List.isEmpty_iff] using hne)]
    exact congrArg some ((sortDescQ_perm _).sum_eq)
  · intro rows s p h10
    have hlen : (sortDescQ (ratingsOf rows s p)).length = (ratingsOf rows s p).length :=
      (sortDescQ_perm _).length_eq
    have hlen10 : ((sortDescQ (ratingsOf rows s p)).take BEST10_COUNT).length = BEST10_COUNT := by
      rw [List.length_take]
      omega
    refine ⟨(sortDescQ (ratingsOf rows s p)).take BEST10_COUNT,
      (sortDescQ (ratingsOf rows s p)).drop BEST10_COUNT, ?_, hlen10, ?_, ?_⟩
    · rw [List.take_append_drop]
      exact sortDescQ_perm _
    · intro x hx y hy
      exact (sortDescQ_sorted _).rel_of_mem_take_of_mem_drop hx hy
    · have hne : (sortDescQ (ratingsOf rows s p)).take BEST10_COUNT ≠ [] := by
        intro h0
        rw [h0] at hlen10
        simp [BEST10_COUNT] at hlen10
      simp only [season_total_best10]
      rw [if_neg (by simpa [List.isEmpty_iff] using hne)]

unseal Rat.add Rat.mul Rat.inv Rat.sub in
/-- C5 witness: order invariance on a two-round group, the small-group sum
   on the same group, and the best-10 decomposition on a twelve-round
   group. -/
theorem ladder_best10_spec_witness :
    season_total_best10 rowsL1 "Winter 2025" "Jobby" =
      season_total_best10 rowsL1' "Winter 2025" "Jobby" ∧
    season_total_best10 rowsL1 "Winter 2025" "Jobby" =
      some (ratingsOf rowsL1 "Winter 2025" "Jobby").sum ∧
    (∃ chosen rest : List ℚ, (chosen ++ rest).Perm (ratingsOf rowsL12 "Winter 2025" "Jobby") ∧
      chosen.length = BEST10_COUNT ∧
      (∀ x ∈ chosen, ∀ y ∈ rest, y ≤ x) ∧
      season_total_best10 rowsL12 "Winter 2025" "Jobby" = some chosen.sum) :=
  ⟨ladder_best10_spec.1 rowsL1 rowsL1' (by decide) "Winter 2025" "Jobby",
   ladder_best10_spec.2.1 rowsL1 "Winter 2025" "Jobby" (by decide) (by decide),
   ladder_best10_spec.2.2 rowsL12 "Winter 2025" "Jobby" (by decide)⟩

lemma mem_trackedSorted_iff {p : String} : p ∈ trackedSorted ↔ p ∈ TRACKED_PLAYERS :=
  List.mem_insertionSort _

unseal Rat.add Rat.mul Rat.inv Rat.sub in
lemma round_half_zero : round_half 0 = 0 := by decide

lemma handicapEntryFor_player (ref : Option ℚ) (p : String) (f : Option ℚ) :
    (handicapEntryFor ref p f).player = p := by
  rcases ref with _ | r <;> rcases f with _ | q <;> rfl

/-- C6: a tracked player whose rolling window (the at most 20 most recent
   rated rounds) holds fewer than `HANDICAP_MIN_ROUNDS = 5` ratings gets
   an entry — a defined status value, not an exception — with null
   handicap, null form index and the insufficiency status; at exactly 5
   window ratings the form index becomes defined. -/
theorem handicap_min_rounds_boundary :
    ∀ (rows : List NormRound) (p : String), p ∈ TRACKED_PLAYERS →
      ((windowRatings (ratedRoundsOf rows p)).length < HANDICAP_MIN_ROUNDS →
        ∃ e ∈ handicapsFromRows rows, e.player = p ∧ e.handicap = none ∧
          e.form_index = none ∧ e.status = STATUS_NO_HANDICAP) ∧
      ((windowRatings (ratedRoundsOf rows p)).length = HANDICAP_MIN_ROUNDS →
        ∃ q : ℚ, formsOf rows p = some q) := by
  intro rows p hp
  have hpS : p ∈ trackedSorted := mem_trackedSorted_iff.mpr hp
  constructor
  · intro hlt
    have hform : formsOf rows p = none := by
      simp only [formsOf, playerFormOf]
      rw [if_pos hlt]
    refine ⟨handicapEntryFor (referenceOf (formsOf rows)) p (formsOf rows p), ?_, ?_⟩
    · simp only [handicapsFromRows, handicapsOf, List.mem_map]
      exact ⟨p, hpS, rfl⟩
    · rw [hform]
      rcases referenceOf (formsOf rows) with _ | ref <;> exact ⟨rfl, rfl, rfl, rfl⟩
  · intro heq
    simp only [formsOf, playerFormOf]
    rw [if_neg (by omega)]
    exact ⟨_, rfl⟩

unseal Rat.add Rat.mul Rat.inv Rat.sub in
/-- C6 witness: with four rated rounds the entry is the insufficiency
   record; a fifth rated round makes the form index defined. -/
theorem handicap_min_rounds_boundary_witness :
    (∃ e ∈ handicapsFromRows rows4W, e.player = "Miza" ∧ e.handicap = none ∧
      e.form_index = none ∧ e.status = STATUS_NO_HANDICAP) ∧
    (∃ q : ℚ, formsOf rows5W "Miza" = some q) :=
  ⟨(handicap_min_rounds_boundary rows4W "Miza" (by decide)).1 (by decide),
   (handicap_min_rounds_boundary rows5W "Miza" (by decide)).2 (by decide)⟩

/-- C7: the handicap output has exactly one entry per tracked player —
   its projected player list is exactly `sorted(TRACKED_PLAYERS)`, a
   duplicate-free permutation of the tracked set, ascending in Python's
   string order — and a tracked player with no rows at all in the data
   gets null form index, null handicap and the insufficiency status. -/
theorem handicaps_per_tracked_player :
    ∀ rows : List NormRound,
      (handicapsFromRows rows).map HandicapEntry.player = trackedSorted ∧
      trackedSorted.Perm TRACKED_PLAYERS ∧ trackedSorted.Nodup ∧
      List.Sorted (fun a b : String => pyStrLe a b = true)
        ((handicapsFromRows rows).map HandicapEntry.player) ∧
      (∀ p ∈ TRACKED_PLAYERS, (∀ r ∈ rows, r.player ≠ p) →
        ∃ e ∈ handicapsFromRows rows, e.player = p ∧ e.form_index = none ∧
          e.handicap = none ∧ e.status = STATUS_NO_HANDICAP) := by
  intro rows
  have hmap : (handicapsFromRows rows).map HandicapEntry.player = trackedSorted := by
    simp only [handicapsFromRows, handicapsOf, List.map_map]
    have hcomp : (HandicapEntry.player ∘ fun p =>
        handicapEntryFor (referenceOf (formsOf rows)) p (formsOf rows p)) = id := by
      funext p
      exact handicapEntryFor_player _ _ _
    rw [hcomp, List.map_id]
  refine ⟨hmap, List.perm_insertionSort _ _, by decide, ?_, ?_⟩
  · rw [hmap]
    decide
  · intro p hp hnone
    have hpS : p ∈ trackedSorted := mem_trackedSorted_iff.mpr hp
    have hempty : ratedRoundsOf rows p = [] := by
      rw [ratedRoundsOf, List.filter_eq_nil_iff]
      intro r hr
      simp [hnone r hr]
    have hform : formsOf rows p = none := by
      simp only [formsOf, hempty]
      rfl
    refine ⟨handicapEntryFor (referenceOf (formsOf rows)) p (formsOf rows p), ?_, ?_⟩
    · simp only [handicapsFromRows, handicapsOf, List.mem_map]
      exact ⟨p, hpS, rfl⟩
    · rw [hform]
      rcases referenceOf (formsOf rows) with _ | ref <;> exact ⟨rfl, rfl, rfl, rfl⟩

/-- C7 witness: the per-player entry shape applied to the empty data set,
   where every tracked player — here "Bucis" — has no rounds at all. -/
theorem handicaps_per_tracked_player_witness :
    (handicapsFromRows []).map HandicapEntry.player = trackedSorted ∧
    (∃ e ∈ handicapsFromRows [], e.player = "Bucis" ∧ e.form_index = none ∧
      e.handicap = none ∧ e.status = STATUS_NO_HANDICAP) :=
  ⟨(handicaps_per_tracked_player []).1,
   (handicaps_per_tracked_player []).2.2.2.2 "Bucis" (by decide)
     (fun r hr => absurd hr (List.not_mem_nil r))⟩

lemma filterMap_eq_singleton_of_unique {α β : Type} (g : α → Option β) (p : α) (f : β)
    (hf : g p = some f) :
    ∀ l : List α, l.Nodup → p ∈ l → (∀ q ∈ l, q ≠ p → g q = none) →
      l.filterMap g = [f] := by
  intro l
  induction l with
  | nil =>
    intro _ hp _
    cases hp
  | cons a t ih =>
    intro hnd hp ho
    rcases List.mem_cons.mp hp with rfl | hpt
    · have ht : t.filterMap g = [] := by
        rw [List.filterMap_eq_nil_iff]
        intro q hq
        exact ho q (List.mem_cons_of_mem _ hq)
          (fun hqp => (List.nodup_cons.mp hnd).1 (hqp ▸ hq))
      rw [List.filterMap_cons, hf, ht]
    · have ha : g a = none :=
        ho a (List.mem_cons_self a t) (fun hap => (List.nodup_cons.mp hnd).1 (hap ▸ hpt))
      rw [List.filterMap_cons, ha]
      exact ih (List.nodup_cons.mp hnd).2 hpt
        (fun q hq hqp => ho q (List.mem_cons_of_mem _ hq) hqp)

/-- C9: when exactly one tracked player has a defined form index, the peer
   reference equals that player's own form index (each player's form is
   counted in the reference average), so that player's handicap is `0`. -/
theorem single_form_reference_and_zero_handicap :
    ∀ (forms : String → Option ℚ) (p : String) (f : ℚ), p ∈ TRACKED_PLAYERS →
      forms p = some f → (∀ q ∈ TRACKED_PLAYERS, q ≠ p → forms q = none) →
      referenceOf forms = some f ∧
      ∃ e ∈ handicapsOf forms, e.player = p ∧ e.handicap = some 0 := by
  intro forms p f hp hf ho
  have hpS : p ∈ trackedSorted := mem_trackedSorted_iff.mpr hp
  have hnd : trackedSorted.Nodup := by decide
  have ho' : ∀ q ∈ trackedSorted, q ≠ p → forms q = none := fun q hq hqp =>
    ho q (mem_trackedSorted_iff.mp hq) hqp
  have helig : trackedSorted.filterMap forms = [f] :=
    filterMap_eq_singleton_of_unique forms p f hf trackedSorted hnd hpS ho'
  have href : referenceOf forms = some f := by
    simp only [referenceOf, helig]
    norm_num
  refine ⟨href, handicapEntryFor (referenceOf forms) p (forms p), ?_, ?_, ?_⟩
  · simp only [handicapsOf, List.mem_map]
    exact ⟨p, hpS, rfl⟩
  · exact handicapEntryFor_player _ _ _
  · rw [href, hf]
    simp only [handicapEntryFor]
    congr 1
    rw [sub_self, zero_div, round_half_zero]
    simp only [HANDICAP_CAP]
    rw [min_eq_right (by norm_num : (0 : ℚ) ≤ 6), max_eq_right (by norm_num : -(6 : ℚ) ≤ 0)]

/-- C9 witness: the reference and zero handicap for a concrete form table
   where only "Miza" has a defined form index. -/
theorem single_form_reference_and_zero_handicap_witness :
    referenceOf wFormsW = some 900 ∧
    ∃ e ∈ handicapsOf wFormsW, e.player = "Miza" ∧ e.handicap = some 0 :=
  single_form_reference_and_zero_handicap wFormsW "Miza" 900 (by decide) (by decide)
    (by decide)

end Donkeys
